import Mathlib

/-!
# A shallow embedding of the tci-lru cache (package `lru`, file `lru.go`),
together with the thread-safe wrapper of `cache.go`.

Keys and values are `interface{}` in Go; we instantiate both at `Nat`
(the cache never inspects them beyond equality of keys). Tags are strings.
`*list.Element` pointers are modelled by `Nat` identifiers drawn from a
monotone counter `nextId`; the heap of all elements ever allocated is the
association list `store`, which never shrinks (a removed element's `entry`
stays readable through a retained pointer, as in Go). The eviction
callback is modelled by unconditionally appending `(key, value)` to `log`;
a cache built without a callback simply ignores `log`.

Go map iteration order is unspecified; buckets and maps are modelled as
association lists in insertion order. Every theorem below that depends on
an iteration order only does so through singleton buckets, where all
orders agree.
-/

namespace TciLru

abbrev Key := Nat
abbrev Val := Nat
abbrev Tag := String
abbrev ElemId := Nat

/-- Go struct `entry` (lru.go): key, value and the tag slice stored in the
element. -/
structure Entry where
  key : Key
  value : Val
  tags : List Tag
deriving Repr, DecidableEq

/-- Go struct `LRU` (lru.go): capacity `size`, the eviction list (`order`,
front first), the key index `items`, the tag index `tagIdx`
(`tags map[string]map[*list.Element]bool` in Go), plus the allocation
counter `nextId`, the element heap `store` and the callback log. -/
structure LRU where
  size : Int
  order : List ElemId
  store : List (ElemId × Entry)
  items : List (Key × ElemId)
  tagIdx : List (Tag × List ElemId)
  nextId : ElemId
  log : List (Key × Val)
deriving Repr, DecidableEq

/-- Association-list lookup: Go `m[k]` with `ok`. -/
def alookup {α β : Type} [DecidableEq α] : List (α × β) → α → Option β
  | [], _ => none
  | (a, b) :: rest, k => if a = k then some b else alookup rest k

/-- Association-list update-or-append: Go `m[k] = v`. -/
def aset {α β : Type} [DecidableEq α] : List (α × β) → α → β → List (α × β)
  | [], k, v => [(k, v)]
  | (a, b) :: rest, k, v =>
      if a = k then (k, v) :: rest else (a, b) :: aset rest k v

/-- Association-list delete: Go `delete(m, k)` (no-op when absent). -/
def aerase {α β : Type} [DecidableEq α] : List (α × β) → α → List (α × β)
  | [], _ => []
  | (a, b) :: rest, k => if a = k then rest else (a, b) :: aerase rest k

/-- `NewLRU(size, onEvict)`: rejects a non-positive size, otherwise an
empty cache. -/
def NewLRU (size : Int) : Option LRU :=
  if size ≤ 0 then none
  else some ⟨size, [], [], [], [], 0, []⟩

/-- `(c *LRU) tag(el, tags)`: insert `el` into each named bucket, lazily
creating the bucket (set semantics of `map[*list.Element]bool`). -/
def tagEl (c : LRU) (el : ElemId) (tags : List Tag) : LRU :=
  tags.foldl (fun c t =>
    let bucket := (alookup c.tagIdx t).getD []
    let bucket := if el ∈ bucket then bucket else bucket ++ [el]
    { c with tagIdx := aset c.tagIdx t bucket }) c

/-- `(c *LRU) untag(el, tags)`: remove `el` from each named bucket and
delete a bucket that becomes empty (`delete` on a missing bucket is a
no-op, as in Go). -/
def untagEl (c : LRU) (el : ElemId) (tags : List Tag) : LRU :=
  tags.foldl (fun c t =>
    let bucket := ((alookup c.tagIdx t).getD []).erase el
    if bucket = [] then { c with tagIdx := aerase c.tagIdx t }
    else { c with tagIdx := aset c.tagIdx t bucket }) c

/-- `list.MoveToFront`: a no-op when the element is not in the list. -/
def moveToFront (l : List ElemId) (el : ElemId) : List ElemId :=
  if el ∈ l then el :: l.erase el else l

/-- Overwrite the `entry` fields of element `el` in the heap
(`el.Value.(*entry).value = value; el.Value.(*entry).tags = tags`). -/
def setEntry (store : List (ElemId × Entry)) (el : ElemId) (value : Val)
    (tags : List Tag) : List (ElemId × Entry) :=
  store.map (fun p => if p.1 = el then (p.1, ⟨p.2.key, value, tags⟩) else p)

/-- `(c *LRU) removeElement(el)`: remove from the eviction list (no-op if
already removed, as `list.Remove` checks `e.list`), untag the entry's own
tags, delete its key from the key index, fire the callback. -/
def removeElement (c : LRU) (el : ElemId) : LRU :=
  match alookup c.store el with
  | none => c
  | some ent =>
    let c := { c with order := c.order.erase el }
    let c := untagEl c el ent.tags
    { c with items := aerase c.items ent.key,
             log := c.log ++ [(ent.key, ent.value)] }

/-- `(c *LRU) removeOldest()`: remove the back-most element, if any. -/
def removeOldest (c : LRU) : LRU :=
  match c.order.getLast? with
  | some el => removeElement c el
  | none => c

/-- `(c *LRU) Add(key, value, tags...)`. NOTE: on the existing-key path the
source calls `c.untag(el, tags)` with the incoming tag slice, not the
entry's previous tags — we mirror the source exactly. -/
def Add (c : LRU) (key : Key) (value : Val) (tags : List Tag) : LRU × Bool :=
  match alookup c.items key with
  | some el =>
    let c := { c with order := moveToFront c.order el }
    let c := untagEl c el tags
    let c := { c with store := setEntry c.store el value tags }
    (tagEl c el tags, false)
  | none =>
    let el := c.nextId
    let c := { c with nextId := c.nextId + 1,
                      store := c.store ++ [(el, ⟨key, value, tags⟩)],
                      order := el :: c.order }
    let c := tagEl c el tags
    let c := { c with items := aset c.items key el }
    if (c.order.length : Int) > c.size then (removeOldest c, true)
    else (c, false)

/-- `(c *LRU) Get(key)`: on hit, move to front and return the value. -/
def Get (c : LRU) (key : Key) : LRU × Option Val :=
  match alookup c.items key with
  | some el =>
    ({ c with order := moveToFront c.order el },
     (alookup c.store el).map (·.value))
  | none => (c, none)

/-- `(c *LRU) Contains(key)`. -/
def Contains (c : LRU) (key : Key) : Bool :=
  (alookup c.items key).isSome

/-- `(c *LRU) Peek(key)`: value without touching recency. -/
def Peek (c : LRU) (key : Key) : Option Val :=
  match alookup c.items key with
  | some el => (alookup c.store el).map (·.value)
  | none => none

/-- `(c *LRU) Remove(key)`. -/
def Remove (c : LRU) (key : Key) : LRU × Bool :=
  match alookup c.items key with
  | some el => (removeElement c el, true)
  | none => (c, false)

/-- `(c *LRU) RemoveOldest()`: returns the removed entry's key and value. -/
def RemoveOldest (c : LRU) : LRU × Option (Key × Val) :=
  match c.order.getLast? with
  | some el =>
    (removeElement c el, (alookup c.store el).map (fun e => (e.key, e.value)))
  | none => (c, none)

/-- `(c *LRU) GetOldest()`. -/
def GetOldest (c : LRU) : Option (Key × Val) :=
  match c.order.getLast? with
  | some el => (alookup c.store el).map (fun e => (e.key, e.value))
  | none => none

/-- `(c *LRU) Len()`. -/
def Len (c : LRU) : Nat := c.order.length

/-- `(c *LRU) Keys()`: oldest to newest. -/
def Keys (c : LRU) : List Key :=
  c.order.reverse.filterMap (fun el => (alookup c.store el).map (·.key))

/-- Iterate `removeOldest` `n` times (the loop body of `Resize`). -/
def removeOldestN (c : LRU) : Nat → LRU
  | 0 => c
  | n + 1 => removeOldestN (removeOldest c) n

/-- `(c *LRU) Resize(size)`: `diff = max (Len - size) 0`, evict that many
back-most entries, store the new size, return `diff`. -/
def Resize (c : LRU) (size : Int) : LRU × Int :=
  let diff := max ((c.order.length : Int) - size) 0
  let c := removeOldestN c diff.toNat
  ({ c with size := size }, diff)

/-- `(c *LRU) Invalidate(tags)`: for each tag, remove every element of its
bucket (each removal fires the callback) and count each removal. -/
def Invalidate (c : LRU) (tags : List Tag) : LRU × Nat :=
  tags.foldl (fun acc t =>
    match alookup acc.1.tagIdx t with
    | some bucket => (bucket.foldl removeElement acc.1, acc.2 + bucket.length)
    | none => acc) (c, 0)

/-- `(c *LRU) FindByTags(tags)`: keys of all elements in the requested
buckets, in bucket order. -/
def FindByTags (c : LRU) (tags : List Tag) : List Key :=
  tags.foldl (fun keys t =>
    match alookup c.tagIdx t with
    | some bucket =>
        keys ++ bucket.filterMap (fun el => (alookup c.store el).map (·.key))
    | none => keys) []

/-- `(c *LRU) Purge()`: callback for every key-index entry, clear the key
index, the eviction list and the whole tag index. -/
def Purge (c : LRU) : LRU :=
  { c with
    order := [], items := [], tagIdx := [],
    log := c.log ++ c.items.filterMap
      (fun p => (alookup c.store p.2).map (fun e => (p.1, e.value))) }

end TciLru

namespace TciLru

/-! ## Basic facts about the association-list primitives -/

lemma alookup_aset {α β : Type} [DecidableEq α] (m : List (α × β)) (k k' : α)
    (v : β) :
    alookup (aset m k v) k' = if k' = k then some v else alookup m k' := by
  induction m with
  | nil =>
    simp only [aset, alookup]
    by_cases h : k = k'
    · rw [if_pos h, if_pos h.symm]
    · rw [if_neg h, if_neg (fun hh => h hh.symm)]
  | cons p rest ih =>
    obtain ⟨a, b⟩ := p
    simp only [aset]
    by_cases hak : a = k
    · subst hak
      simp only [alookup]
      by_cases h : a = k'
      · rw [if_pos h, if_pos h.symm]
      · rw [if_neg h, if_neg (fun hh => h hh.symm), if_neg h]
    · rw [if_neg hak]
      simp only [alookup, ih]
      by_cases h : a = k'
      · subst h
        rw [if_pos rfl, if_pos rfl, if_neg hak]
      · rw [if_neg h, if_neg h]

lemma alookup_append {α β : Type} [DecidableEq α] (m₁ m₂ : List (α × β))
    (k : α) (h : alookup m₁ k = none) :
    alookup (m₁ ++ m₂) k = alookup m₂ k := by
  induction m₁ with
  | nil => simp
  | cons p rest ih =>
    obtain ⟨a, b⟩ := p
    by_cases hak : a = k
    · simp [alookup, hak] at h
    · simp [alookup, hak] at h ⊢
      exact ih h

lemma alookup_lt_none (m : List (ElemId × Entry)) (n : ElemId)
    (h : ∀ p ∈ m, p.1 < n) : alookup m n = none := by
  induction m with
  | nil => rfl
  | cons p rest ih =>
    obtain ⟨a, b⟩ := p
    have ha : a < n := h (a, b) (List.mem_cons_self _ _)
    simp only [alookup, if_neg (Nat.ne_of_lt ha)]
    exact ih (fun q hq => h q (List.mem_cons_of_mem _ hq))

lemma aerase_aset_of_none {α β : Type} [DecidableEq α] (m : List (α × β))
    (k : α) (v : β) (h : alookup m k = none) : aerase (aset m k v) k = m := by
  induction m with
  | nil => simp [aset, aerase]
  | cons p rest ih =>
    obtain ⟨a, b⟩ := p
    by_cases hak : a = k
    · simp [alookup, hak] at h
    · simp only [alookup, if_neg hak] at h
      simp [aset, aerase, hak, ih h]

/-! ## Frame lemmas: `tagEl` and `untagEl` only touch the tag index -/

lemma foldl_tagIdx_frame (f : LRU → Tag → LRU)
    (hf : ∀ c t, ∃ ti, f c t = { c with tagIdx := ti }) :
    ∀ (ts : List Tag) (c : LRU),
      ∃ ti, List.foldl f c ts = { c with tagIdx := ti } := by
  intro ts
  induction ts with
  | nil => intro c; exact ⟨c.tagIdx, rfl⟩
  | cons t rest ih =>
    intro c
    obtain ⟨ti1, h1⟩ := hf c t
    obtain ⟨ti2, h2⟩ := ih (f c t)
    exact ⟨ti2, by rw [List.foldl_cons, h2, h1]⟩

lemma tagEl_eq (c : LRU) (el : ElemId) (ts : List Tag) :
    ∃ ti, tagEl c el ts = { c with tagIdx := ti } := by
  apply foldl_tagIdx_frame
  intro c t
  exact ⟨_, rfl⟩

lemma untagEl_eq (c : LRU) (el : ElemId) (ts : List Tag) :
    ∃ ti, untagEl c el ts = { c with tagIdx := ti } := by
  apply foldl_tagIdx_frame
  intro c t
  dsimp only
  by_cases hb : ((alookup c.tagIdx t).getD []).erase el = []
  · rw [if_pos hb]; exact ⟨_, rfl⟩
  · rw [if_neg hb]; exact ⟨_, rfl⟩

lemma tagEl_size (c : LRU) (el : ElemId) (ts : List Tag) :
    (tagEl c el ts).size = c.size := by
  obtain ⟨ti, h⟩ := tagEl_eq c el ts; rw [h]

lemma tagEl_order (c : LRU) (el : ElemId) (ts : List Tag) :
    (tagEl c el ts).order = c.order := by
  obtain ⟨ti, h⟩ := tagEl_eq c el ts; rw [h]

lemma tagEl_store (c : LRU) (el : ElemId) (ts : List Tag) :
    (tagEl c el ts).store = c.store := by
  obtain ⟨ti, h⟩ := tagEl_eq c el ts; rw [h]

lemma tagEl_items (c : LRU) (el : ElemId) (ts : List Tag) :
    (tagEl c el ts).items = c.items := by
  obtain ⟨ti, h⟩ := tagEl_eq c el ts; rw [h]

lemma tagEl_nextId (c : LRU) (el : ElemId) (ts : List Tag) :
    (tagEl c el ts).nextId = c.nextId := by
  obtain ⟨ti, h⟩ := tagEl_eq c el ts; rw [h]

lemma tagEl_log (c : LRU) (el : ElemId) (ts : List Tag) :
    (tagEl c el ts).log = c.log := by
  obtain ⟨ti, h⟩ := tagEl_eq c el ts; rw [h]

lemma untagEl_size (c : LRU) (el : ElemId) (ts : List Tag) :
    (untagEl c el ts).size = c.size := by
  obtain ⟨ti, h⟩ := untagEl_eq c el ts; rw [h]

lemma untagEl_order (c : LRU) (el : ElemId) (ts : List Tag) :
    (untagEl c el ts).order = c.order := by
  obtain ⟨ti, h⟩ := untagEl_eq c el ts; rw [h]

lemma untagEl_store (c : LRU) (el : ElemId) (ts : List Tag) :
    (untagEl c el ts).store = c.store := by
  obtain ⟨ti, h⟩ := untagEl_eq c el ts; rw [h]

lemma untagEl_items (c : LRU) (el : ElemId) (ts : List Tag) :
    (untagEl c el ts).items = c.items := by
  obtain ⟨ti, h⟩ := untagEl_eq c el ts; rw [h]

lemma untagEl_nextId (c : LRU) (el : ElemId) (ts : List Tag) :
    (untagEl c el ts).nextId = c.nextId := by
  obtain ⟨ti, h⟩ := untagEl_eq c el ts; rw [h]

lemma untagEl_log (c : LRU) (el : ElemId) (ts : List Tag) :
    (untagEl c el ts).log = c.log := by
  obtain ⟨ti, h⟩ := untagEl_eq c el ts; rw [h]

end TciLru

namespace TciLru

/-- C1: the claim says re-adding a key fully replaces its tag set, so after
`Add(k, v1, ["a"]); Add(k, v2, ["b"])` the key must be absent from
`FindByTags(["a"])`. In the source, `Add` on an existing key calls
`untag` with the *new* tag list instead of the entry's old tags
(lru.go, `c.untag(el, tags)`), so the old tag `"a"` is never removed:
`FindByTags(["a"])` still returns the key. This theorem evaluates the
embedded code at the failing input `k = 1, v1 = 2, v2 = 3`. -/
theorem C1_add_leaves_old_tag :
    ((NewLRU 10).map (fun c0 =>
      let c1 := (Add c0 1 2 ["a"]).1
      let c2 := (Add c1 1 3 ["b"]).1
      (FindByTags c2 ["a"], FindByTags c2 ["b"]))) = some ([1], [1]) := by
  decide

/-- C2: the claimed invariant — an entry is in the Tag Index bucket for `T`
iff `T` is in its tag set — is violated in the reachable state after
`Add(1, 2, ["a"]); Add(1, 3, ["b"])`: element 0 still sits in the bucket
for `"a"` while its entry's tag set is `["b"]`. -/
theorem C2_tag_index_invariant_violated :
    ((NewLRU 10).map (fun c0 =>
      let c2 := (Add (Add c0 1 2 ["a"]).1 1 3 ["b"]).1
      (alookup c2.tagIdx "a", (alookup c2.store 0).map (·.tags)))) =
      some (some [0], some ["b"]) := by
  decide

/-- C3: the claim says every destroyed entry fires the eviction callback
exactly once. After `Add(1, 10, ["a"]); Add(1, 20, ["b"])` the stale
bucket for `"a"` still references the entry, so `Invalidate(["a"])`
followed by `Invalidate(["a"])` runs `removeElement` twice on the same
(already destroyed) element and the callback fires twice with `(1, 20)`. -/
theorem C3_callback_fires_twice :
    ((NewLRU 10).map (fun c0 =>
      let c1 := (Add c0 1 10 ["a"]).1
      let c2 := (Add c1 1 20 ["b"]).1
      let c3 := (Invalidate c2 ["a"]).1
      let c4 := (Invalidate c3 ["a"]).1
      c4.log)) = some [(1, 20), (1, 20)] := by
  decide

/-- C4: the claim says the Ordering Structure and the Key Index always have
the same cardinality. A stale bucket reference lets `Invalidate(["a"])`
run `removeElement` on a long-dead element whose key was re-added, which
deletes the live key-index entry while the live element stays in the
ordering list: afterwards the list holds 1 element but the key index 0. -/
theorem C4_size_invariant_violated :
    ((NewLRU 10).map (fun c0 =>
      let c1 := (Add c0 1 10 ["a"]).1
      let c2 := (Add c1 1 20 ["b"]).1
      let c3 := (Remove c2 1).1
      let c4 := (Add c3 1 30 []).1
      let c5 := (Invalidate c4 ["a"]).1
      (c5.order.length, c5.items.length))) = some (1, 0) := by
  decide

/-- C8 counterexample: the claim quantifies over *every* `newCapacity` and
says `Resize(newCapacity)` with `newCapacity < n` evicts exactly
`n - newCapacity` entries and returns that count. On a cache holding
`n = 1` entry, `Resize(-1)` returns `1 - (-1) = 2` but can only evict the
single existing entry (the callback log grows by exactly 1), so
"evicts exactly `n - newCapacity` oldest entries" is false at this
input. -/
theorem C8_negative_resize_counterexample :
    ((NewLRU 10).map (fun c0 =>
      let c1 := (Add c0 1 7 []).1
      let r := Resize c1 (-1)
      (Len c1, r.2, r.1.log.length, r.1.order))) = some (1, 2, 1, []) := by
  decide

/-- C10 counterexample: the claim says `Resize(s)` with `s ≤ 0` returns the
previous length. On a cache holding 1 entry, `Resize(-1)` returns
`Len - s = 2`, not the previous length 1. -/
theorem C10_return_value_counterexample :
    ((NewLRU 10).map (fun c0 =>
      let c1 := (Add c0 1 7 []).1
      (Len c1, (Resize c1 (-1)).2))) = some (1, 2) := by
  decide

end TciLru

namespace TciLru

/-- cache.go `NewWithEvict(size, onEvicted)`: delegates to `lru.NewLRU`
and propagates its error. -/
def NewWithEvict (size : Int) : Option LRU := NewLRU size

/-- cache.go `New(size)`: `NewWithEvict(size, nil)`. -/
def New (size : Int) : Option LRU := NewWithEvict size

/-- C9: construction (`New` / `NewWithEvict` / `NewLRU`) fails if and only
if the requested capacity is ≤ 0. (Every other operation of the
embedding is a total function returning found/ok flags, matching the
spec's "only fallible path".) -/
theorem C9_construction_fails_iff_nonpositive (s : Int) :
    (New s = none ↔ s ≤ 0) ∧ (NewWithEvict s = none ↔ s ≤ 0) ∧
    (NewLRU s = none ↔ s ≤ 0) := by
  unfold New NewWithEvict NewLRU
  by_cases h : s ≤ 0 <;> simp [h]

/-- C7: on a fresh cache of capacity 2 with distinct keys `a, b, c`, the
sequence `Add(a); Add(b); Get(a); Add(c)` evicts `b` and not `a`:
the final `Add` reports an eviction, the cache still contains `a` and
`c` but not `b`, and the eviction callback fired exactly for `(b, vb)` —
because `Get` moved `a` to the front of the recency order. -/
theorem C7_get_refreshes_recency (a b c : Key) (va vb vc : Val)
    (hab : a ≠ b) (hac : a ≠ c) (hbc : b ≠ c) :
    ∀ c0, NewLRU 2 = some c0 →
      (Add (Get (Add (Add c0 a va []).1 b vb []).1 a).1 c vc []).2 = true ∧
      Contains (Add (Get (Add (Add c0 a va []).1 b vb []).1 a).1 c vc []).1 a
        = true ∧
      Contains (Add (Get (Add (Add c0 a va []).1 b vb []).1 a).1 c vc []).1 b
        = false ∧
      Contains (Add (Get (Add (Add c0 a va []).1 b vb []).1 a).1 c vc []).1 c
        = true ∧
      (Add (Get (Add (Add c0 a va []).1 b vb []).1 a).1 c vc []).1.log
        = [(b, vb)] := by
  intro c0 h0
  have hc0 : c0 = ⟨2, [], [], [], [], 0, []⟩ := by
    rw [NewLRU] at h0
    simp only [show ¬((2 : Int) ≤ 0) by norm_num, if_false] at h0
    exact (Option.some_inj.mp h0).symm
  subst hc0
  simp [Add, Get, Contains, alookup, aset, aerase, moveToFront,
    removeOldest, removeElement, untagEl, tagEl, setEntry, Len,
    hab, hac, hbc, Ne.symm hab, Ne.symm hac, Ne.symm hbc]

/-- Witness for C7 at `a, b, c = 1, 2, 3` and values `4, 5, 6`. -/
theorem C7_get_refreshes_recency_witness :
    (Add (Get (Add (Add (⟨2, [], [], [], [], 0, []⟩ : LRU) 1 4 []).1
      2 5 []).1 1).1 3 6 []).2 = true := by
  exact (C7_get_refreshes_recency 1 2 3 4 5 6 (by decide) (by decide)
    (by decide) ⟨2, [], [], [], [], 0, []⟩ (by decide)).1

end TciLru

namespace TciLru

/-- C5: a freshly added entry `k` tagged `[t1, t2]` (distinct tags) that is
invalidated by a single `Invalidate([t1, t2])` call is removed exactly
once: the call returns `removedCount = 1` (not 2), the eviction callback
fires exactly once with `(k, v)`, and `k` is gone. The removal triggered
by `t1` untags the entry from `t2` as well, so the second bucket is
already gone when `t2` is processed. -/
theorem C5_double_tag_invalidate_counts_once (cap : Int) (hcap : 0 < cap)
    (k : Key) (v : Val) (t1 t2 : Tag) (h12 : t1 ≠ t2) :
    ∀ c0, NewLRU cap = some c0 →
      (Invalidate (Add c0 k v [t1, t2]).1 [t1, t2]).2 = 1 ∧
      (Invalidate (Add c0 k v [t1, t2]).1 [t1, t2]).1.log = [(k, v)] ∧
      Contains (Invalidate (Add c0 k v [t1, t2]).1 [t1, t2]).1 k = false := by
  intro c0 h0
  have hc0 : c0 = ⟨cap, [], [], [], [], 0, []⟩ := by
    rw [NewLRU] at h0
    rw [if_neg (by omega : ¬cap ≤ 0)] at h0
    exact (Option.some_inj.mp h0).symm
  subst hc0
  have hgt : ¬((1 : Int) > cap) := by omega
  simp [Add, Invalidate, Contains, alookup, aset, aerase, moveToFront,
    removeOldest, removeElement, untagEl, tagEl, setEntry,
    h12, Ne.symm h12, hgt]

/-- Witness for C5 at capacity 3, key 1, value 2, tags `"t1"`, `"t2"`. -/
theorem C5_double_tag_invalidate_counts_once_witness :
    (Invalidate (Add (⟨3, [], [], [], [], 0, []⟩ : LRU) 1 2 ["t1", "t2"]).1
      ["t1", "t2"]).2 = 1 := by
  exact (C5_double_tag_invalidate_counts_once 3 (by norm_num) 1 2 "t1" "t2"
    (by decide) ⟨3, [], [], [], [], 0, []⟩ (by decide)).1

end TciLru

namespace TciLru

/-- Fold a list of `(key, value, tags)` triples through `Add`, collecting
the returned eviction flags in call order. -/
def addAll (c : LRU) : List (Key × Val × List Tag) → LRU × List Bool
  | [] => (c, [])
  | (k, v, ts) :: rest =>
    let r := Add c k v ts
    let r2 := addAll r.1 rest
    (r2.1, r.2 :: r2.2)

lemma addAll_append (L1 L2 : List (Key × Val × List Tag)) : ∀ c : LRU,
    addAll c (L1 ++ L2) =
      ((addAll (addAll c L1).1 L2).1,
       (addAll c L1).2 ++ (addAll (addAll c L1).1 L2).2) := by
  induction L1 with
  | nil => intro c; simp [addAll]
  | cons p rest ih =>
    intro c
    obtain ⟨k, v, ts⟩ := p
    simp [addAll, ih]

/-- `Add` of a previously-absent key with spare capacity: no eviction, the
new element is pushed to the front, the heap and key index grow, and
nothing else changes. -/
lemma Add_fresh (c : LRU) (k : Key) (v : Val) (ts : List Tag)
    (hk : alookup c.items k = none)
    (hcap : (c.order.length : Int) + 1 ≤ c.size) :
    (Add c k v ts).2 = false ∧
    (Add c k v ts).1.order = c.nextId :: c.order ∧
    (Add c k v ts).1.store = c.store ++ [(c.nextId, ⟨k, v, ts⟩)] ∧
    (Add c k v ts).1.items = aset c.items k c.nextId ∧
    (Add c k v ts).1.log = c.log ∧
    (Add c k v ts).1.size = c.size ∧
    (Add c k v ts).1.nextId = c.nextId + 1 := by
  unfold Add
  rw [hk]
  obtain ⟨ti, hti⟩ := tagEl_eq
    { c with nextId := c.nextId + 1,
             store := c.store ++ [(c.nextId, ⟨k, v, ts⟩)],
             order := c.nextId :: c.order } c.nextId ts
  dsimp only
  rw [hti]
  dsimp only
  rw [if_neg (by simp only [List.length_cons]; push_cast; omega)]
  exact ⟨rfl, rfl, rfl, rfl, rfl, rfl, rfl⟩

end TciLru

namespace TciLru

/-- Filling a cache with fresh, pairwise-distinct keys within capacity:
no `Add` reports an eviction, the eviction list grows by one per add on
top of the old list, the heap only grows, the log is untouched, and keys
outside the batch stay absent. -/
lemma addAll_fresh (P : List (Key × Val × List Tag)) :
    ∀ c : LRU,
    (∀ p ∈ P, alookup c.items p.1 = none) →
    (P.map (fun p => p.1)).Nodup →
    ((c.order.length : Int) + P.length ≤ c.size) →
    (addAll c P).2 = List.replicate P.length false ∧
    (∃ pre, (addAll c P).1.order = pre ++ c.order ∧
      pre.length = P.length) ∧
    (∃ post, (addAll c P).1.store = c.store ++ post) ∧
    (addAll c P).1.log = c.log ∧
    (addAll c P).1.size = c.size ∧
    (∀ k, alookup c.items k = none → k ∉ P.map (fun p => p.1) →
      alookup (addAll c P).1.items k = none) := by
  induction P with
  | nil =>
    intro c _ _ _
    exact ⟨rfl, ⟨[], rfl, rfl⟩, ⟨[], by simp [addAll]⟩, rfl, rfl,
      fun k hk _ => hk⟩
  | cons p rest ih =>
    intro c hfresh hnd hcap
    obtain ⟨k, v, ts⟩ := p
    have hk : alookup c.items k = none := hfresh _ (List.mem_cons_self _ _)
    have hcap1 : (c.order.length : Int) + 1 ≤ c.size := by
      simp only [List.length_cons] at hcap
      push_cast at hcap
      omega
    obtain ⟨hflag, horder, hstore, hitems, hlog, hsize, hnext⟩ :=
      Add_fresh c k v ts hk hcap1
    have hnd' := hnd
    rw [List.map_cons] at hnd'
    have hndk : k ∉ rest.map (fun p => p.1) := (List.nodup_cons.mp hnd').1
    have hnd1 : (rest.map (fun p => p.1)).Nodup := (List.nodup_cons.mp hnd').2
    have hfresh1 : ∀ q ∈ rest, alookup (Add c k v ts).1.items q.1 = none := by
      intro q hq
      rw [hitems, alookup_aset]
      have hne : q.1 ≠ k := by
        intro he
        apply hndk
        rw [← he]
        exact List.mem_map_of_mem _ hq
      rw [if_neg hne]
      exact hfresh q (List.mem_cons_of_mem _ hq)
    have hcap2 : (((Add c k v ts).1.order.length : Int) + rest.length
        ≤ (Add c k v ts).1.size) := by
      rw [horder, hsize]
      simp only [List.length_cons, List.length_cons] at hcap ⊢
      push_cast at hcap ⊢
      omega
    obtain ⟨ihflag, ⟨pre, ihorder, ihlen⟩, ⟨post, ihstore⟩, ihlog, ihsize,
      ihitems⟩ := ih (Add c k v ts).1 hfresh1 hnd1 hcap2
    simp only [addAll]
    refine ⟨?_, ⟨pre ++ [c.nextId], ?_, ?_⟩,
      ⟨[(c.nextId, ⟨k, v, ts⟩)] ++ post, ?_⟩, ?_, ?_, ?_⟩
    · simp only [List.length_cons, List.replicate_succ]
      rw [hflag, ihflag]
    · rw [ihorder, horder, List.append_assoc]
      rfl
    · simp [ihlen]
    · rw [ihstore, hstore, List.append_assoc]
    · rw [ihlog, hlog]
    · rw [ihsize, hsize]
    · intro k' hk' hk'mem
      have hk'k : k' ≠ k := by
        intro he
        exact hk'mem (by simp [he])
      apply ihitems
      · rw [hitems, alookup_aset, if_neg hk'k]
        exact hk'
      · intro hmem
        exact hk'mem (by simp [hmem])

end TciLru

namespace TciLru

/-- `removeElement` on an element whose entry is in the heap: drops it from
the eviction list, erases its key, appends one callback record; the heap,
capacity and allocation counter stay. -/
lemma removeElement_fields (c : LRU) (el : ElemId) (ent : Entry)
    (h : alookup c.store el = some ent) :
    (removeElement c el).order = c.order.erase el ∧
    (removeElement c el).store = c.store ∧
    (removeElement c el).items = aerase c.items ent.key ∧
    (removeElement c el).log = c.log ++ [(ent.key, ent.value)] ∧
    (removeElement c el).size = c.size ∧
    (removeElement c el).nextId = c.nextId := by
  unfold removeElement
  rw [h]
  obtain ⟨ti, hti⟩ := untagEl_eq { c with order := c.order.erase el } el ent.tags
  dsimp only
  rw [hti]
  exact ⟨rfl, rfl, rfl, rfl, rfl, rfl⟩

lemma removeOldest_last (c : LRU) (el : ElemId)
    (h : c.order.getLast? = some el) :
    removeOldest c = removeElement c el := by
  unfold removeOldest
  rw [h]

/-- `Add` of a fresh key at (or above) capacity: the eviction branch fires
and removes the oldest element of the intermediate state `S`. -/
lemma Add_evict (c : LRU) (k : Key) (v : Val) (ts : List Tag)
    (hk : alookup c.items k = none)
    (hcap : (c.order.length : Int) + 1 > c.size) :
    ∃ S : LRU, Add c k v ts = (removeOldest S, true) ∧
      S.order = c.nextId :: c.order ∧
      S.store = c.store ++ [(c.nextId, ⟨k, v, ts⟩)] ∧
      S.items = aset c.items k c.nextId ∧
      S.log = c.log ∧ S.size = c.size ∧ S.nextId = c.nextId + 1 := by
  unfold Add
  rw [hk]
  obtain ⟨ti, hti⟩ := tagEl_eq
    { c with nextId := c.nextId + 1,
             store := c.store ++ [(c.nextId, ⟨k, v, ts⟩)],
             order := c.nextId :: c.order } c.nextId ts
  dsimp only
  rw [hti]
  dsimp only
  rw [if_pos (by simp only [List.length_cons]; push_cast; omega)]
  exact ⟨_, rfl, rfl, rfl, rfl, rfl, rfl, rfl⟩

lemma addAll_cons (c : LRU) (k : Key) (v : Val) (ts : List Tag)
    (rest : List (Key × Val × List Tag)) :
    addAll c ((k, v, ts) :: rest) =
      ((addAll (Add c k v ts).1 rest).1,
       (Add c k v ts).2 :: (addAll (Add c k v ts).1 rest).2) := by
  simp [addAll]

lemma addAll_single (c : LRU) (k : Key) (v : Val) (ts : List Tag) :
    addAll c [(k, v, ts)] = ((Add c k v ts).1, [(Add c k v ts).2]) := by
  simp [addAll]

/-- C6: for a fresh cache of capacity `N > 0` and any sequence of `N + 1`
`Add` calls with pairwise-distinct keys (arbitrary values and tags, no
other operations interleaved), exactly one eviction happens: the final
`Add` returns `true`, all earlier ones return `false`, and the single
evicted entry is the first key added, with its original value — shown by
the callback log being exactly `[(first key, first value)]`. -/
theorem C6_capacity_bound_evicts_first (N : Nat) (hN : 0 < N)
    (L : List (Key × Val × List Tag)) (hlen : L.length = N + 1)
    (hnd : (L.map (fun p => p.1)).Nodup)
    (first : Key × Val × List Tag) (hfirst : L.head? = some first) :
    ∀ c0, NewLRU (N : Int) = some c0 →
      (addAll c0 L).2 = List.replicate N false ++ [true] ∧
      (addAll c0 L).1.log = [(first.1, first.2.1)] := by
  intro c0 h0
  have hc0 : c0 = ⟨(N : Int), [], [], [], [], 0, []⟩ := by
    rw [NewLRU] at h0
    rw [if_neg (by omega : ¬(N : Int) ≤ 0)] at h0
    exact (Option.some_inj.mp h0).symm
  subst hc0
  cases L with
  | nil => simp at hfirst
  | cons p1 L' =>
  obtain ⟨k1, v1, t1⟩ := p1
  have hfirst' : first = (k1, v1, t1) := by
    simp only [List.head?_cons, Option.some_inj] at hfirst
    exact hfirst.symm
  subst hfirst'
  rcases List.eq_nil_or_concat L' with hL' | ⟨mid, lastT, hL'⟩
  · rw [hL'] at hlen
    simp at hlen
    omega
  rw [List.concat_eq_append] at hL'
  subst hL'
  obtain ⟨kL, vL, tL⟩ := lastT
  have hmidlen : mid.length + 1 = N := by
    simp only [List.length_cons, List.length_append, List.length_singleton,
      List.length_nil] at hlen
    omega
  -- unpack distinctness
  rw [List.map_cons] at hnd
  have hnd1 := List.nodup_cons.mp hnd
  have hk1notin : k1 ∉ (mid ++ [(kL, vL, tL)]).map (fun p => p.1) := by
    simpa using hnd1.1
  have hndtail : ((mid ++ [(kL, vL, tL)]).map (fun p => p.1)).Nodup := hnd1.2
  rw [List.map_append] at hndtail hk1notin
  have hndmid : (mid.map (fun p => p.1)).Nodup :=
    (List.nodup_append.mp hndtail).1
  have hkLnotmid : kL ∉ mid.map (fun p => p.1) := by
    intro hmem
    have hdisj := (List.nodup_append.mp hndtail).2.2
    exact hdisj hmem (by simp)
  have hk1kL : k1 ≠ kL := by
    intro he
    apply hk1notin
    rw [List.mem_append]
    right
    simp [he]
  have hk1mid : k1 ∉ mid.map (fun p => p.1) := by
    intro hmem
    exact hk1notin (List.mem_append.mpr (Or.inl hmem))
  -- step 1: the first Add on the fresh cache
  obtain ⟨hf1, ho1, hst1, hit1, hlg1, hsz1, hnx1⟩ :=
    Add_fresh ⟨(N : Int), [], [], [], [], 0, []⟩ k1 v1 t1 rfl
      (by simp only [List.length_nil]; omega)
  have ho1' : (Add ⟨(N : Int), [], [], [], [], 0, []⟩ k1 v1 t1).1.order
      = [0] := by rw [ho1]
  have hst1' : (Add ⟨(N : Int), [], [], [], [], 0, []⟩ k1 v1 t1).1.store
      = [(0, ⟨k1, v1, t1⟩)] := by rw [hst1]; rfl
  have hit1' : (Add ⟨(N : Int), [], [], [], [], 0, []⟩ k1 v1 t1).1.items
      = [(k1, 0)] := by rw [hit1]; rfl
  have hlg1' : (Add ⟨(N : Int), [], [], [], [], 0, []⟩ k1 v1 t1).1.log
      = [] := by rw [hlg1]
  have hsz1' : (Add ⟨(N : Int), [], [], [], [], 0, []⟩ k1 v1 t1).1.size
      = (N : Int) := by rw [hsz1]
  set s1 := (Add ⟨(N : Int), [], [], [], [], 0, []⟩ k1 v1 t1).1 with hs1def
  -- step 2: fill with the middle adds
  obtain ⟨hfM2, ⟨pre, hoM, hpre⟩, ⟨post, hstM⟩, hlgM, hszM, hitM⟩ :=
    addAll_fresh mid s1
      (by
        intro q hq
        rw [hit1']
        have hne : k1 ≠ q.1 := by
          intro he
          exact hk1mid (he ▸ List.mem_map_of_mem _ hq)
        simp [alookup, hne])
      hndmid
      (by rw [ho1', hsz1']; simp only [List.length_singleton]; push_cast; omega)
  set cM := (addAll s1 mid).1 with hcMdef
  -- step 3: the final, evicting Add
  have hkLfresh : alookup cM.items kL = none := by
    apply hitM
    · rw [hit1']
      simp [alookup, hk1kL]
    · exact hkLnotmid
  have hcMlen : cM.order.length = N := by
    rw [hoM, ho1']
    simp only [List.length_append, List.length_singleton, hpre]
    omega
  obtain ⟨S, hAddEq, hSorder, hSstore, hSitems, hSlog, hSsize, hSnext⟩ :=
    Add_evict cM kL vL tL hkLfresh
      (by rw [hcMlen, hszM, hsz1']; omega)
  have hlastS : S.order.getLast? = some 0 := by
    rw [hSorder, hoM, ho1']
    rw [show cM.nextId :: (pre ++ [0]) = (cM.nextId :: pre) ++ [0] from rfl]
    exact List.getLast?_concat _
  have hstoreS : alookup S.store 0 = some ⟨k1, v1, t1⟩ := by
    rw [hSstore, hstM, hst1']
    simp [alookup]
  obtain ⟨hrO, hrSt, hrIt, hrLog, hrSz, hrNx⟩ :=
    removeElement_fields S 0 ⟨k1, v1, t1⟩ hstoreS
  -- assemble
  rw [addAll_cons, addAll_append, addAll_single]
  rw [← hs1def, ← hcMdef, hAddEq]
  constructor
  · simp only [hf1, hfM2]
    rw [show N = mid.length + 1 from hmidlen.symm]
    simp [List.replicate_succ]
  · dsimp only
    rw [removeOldest_last S 0 hlastS, hrLog, hSlog, hlgM, hlg1']
    rfl

end TciLru

namespace TciLru

/-- Well-formedness of reachable cache states, as used by the `Resize`
theorems: every pointer in the eviction list has a heap entry, the list
holds no duplicate pointers, and every allocated id is below the
allocation counter. -/
def WF (c : LRU) : Prop :=
  (∀ el ∈ c.order, (alookup c.store el).isSome) ∧
  c.order.Nodup ∧
  (∀ p ∈ c.store, p.1 < c.nextId)

instance (c : LRU) : Decidable (WF c) := by
  unfold WF
  infer_instance

lemma erase_getLast_of_nodup : ∀ (l : List ElemId) (h : l ≠ []),
    l.Nodup → l.erase (l.getLast h) = l.dropLast := by
  intro l
  induction l with
  | nil => intro h; exact absurd rfl h
  | cons a t ih =>
    intro h hnd
    cases t with
    | nil => simp
    | cons b t' =>
      have hne : a ≠ (b :: t').getLast (by simp) := by
        intro he
        have hmem : (b :: t').getLast (by simp) ∈ b :: t' :=
          List.getLast_mem _
        rw [← he] at hmem
        exact (List.nodup_cons.mp hnd).1 hmem
      rw [List.getLast_cons (by simp : b :: t' ≠ [])]
      rw [List.erase_cons_tail (by simpa using hne)]
      rw [ih (by simp) (List.nodup_cons.mp hnd).2]
      rfl

lemma removeOldestN_spec : ∀ (m : Nat) (c : LRU), WF c →
    m ≤ c.order.length →
    ((removeOldestN c m).order = (c.order.reverse.drop m).reverse ∧
     (removeOldestN c m).store = c.store ∧
     (removeOldestN c m).size = c.size ∧
     (removeOldestN c m).nextId = c.nextId ∧
     (removeOldestN c m).log = c.log ++ (c.order.reverse.take m).filterMap
        (fun el => (alookup c.store el).map (fun e => (e.key, e.value))) ∧
     WF (removeOldestN c m)) := by
  intro m
  induction m with
  | zero =>
    intro c hwf _
    exact ⟨by simp [removeOldestN], rfl, rfl, rfl, by simp [removeOldestN],
      hwf⟩
  | succ n ih =>
    intro c hwf hm
    have hne : c.order ≠ [] := by
      intro h
      rw [h] at hm
      simp at hm
    have hlastmem : c.order.getLast hne ∈ c.order := List.getLast_mem hne
    obtain ⟨ent, hent⟩ := Option.isSome_iff_exists.mp (hwf.1 _ hlastmem)
    have hro : removeOldest c = removeElement c (c.order.getLast hne) :=
      removeOldest_last c _ (List.getLast?_eq_getLast c.order hne)
    obtain ⟨hrO, hrSt, hrIt, hrLog, hrSz, hrNx⟩ :=
      removeElement_fields c (c.order.getLast hne) ent hent
    have hrO' : (removeOldest c).order = c.order.dropLast := by
      rw [hro, hrO, erase_getLast_of_nodup c.order hne hwf.2.1]
    have hwf1 : WF (removeOldest c) := by
      refine ⟨?_, ?_, ?_⟩
      · intro el hel
        rw [hro, hrSt]
        apply hwf.1
        have hel' : el ∈ c.order.dropLast := by
          rw [← hrO']
          exact hel
        exact (List.dropLast_sublist c.order).subset hel'
      · rw [hrO']
        exact hwf.2.1.sublist (List.dropLast_sublist c.order)
      · intro p hp
        rw [hro, hrNx]
        apply hwf.2.2
        rw [hro, hrSt] at hp
        exact hp
    have hlen1 : n ≤ (removeOldest c).order.length := by
      rw [hrO']
      rw [List.length_dropLast]
      omega
    obtain ⟨iho, ihst, ihsz, ihnx, ihlog, ihwf⟩ := ih (removeOldest c) hwf1 hlen1
    have hdecomp : c.order = c.order.dropLast ++ [c.order.getLast hne] :=
      (List.dropLast_append_getLast hne).symm
    have hrev : c.order.reverse
        = c.order.getLast hne :: c.order.dropLast.reverse := by
      conv_lhs => rw [hdecomp]
      simp
    have hstep : removeOldestN c (n + 1) = removeOldestN (removeOldest c) n :=
      rfl
    refine ⟨?_, ?_, ?_, ?_, ?_, ?_⟩
    · rw [hstep, iho, hrO', hrev]
      rfl
    · rw [hstep, ihst, hro, hrSt]
    · rw [hstep, ihsz, hro, hrSz]
    · rw [hstep, ihnx, hro, hrNx]
    · rw [hstep, ihlog, hrev]
      rw [show (removeOldest c).log = c.log ++ [(ent.key, ent.value)] from by
        rw [hro, hrLog]]
      rw [show (removeOldest c).store = c.store from by rw [hro, hrSt]]
      rw [show (removeOldest c).order = c.order.dropLast from hrO']
      simp [hent]
    · rw [hstep]
      exact ihwf

lemma removeOldestN_empty (m : Nat) : ∀ c : LRU, c.order = [] →
    removeOldestN c m = c := by
  induction m with
  | zero => intro c _; rfl
  | succ n ih =>
    intro c h
    have hro : removeOldest c = c := by
      unfold removeOldest
      rw [h]
      rfl
    show removeOldestN (removeOldest c) n = c
    rw [hro]
    exact ih c h

lemma removeOldestN_add (a b : Nat) : ∀ c : LRU,
    removeOldestN c (a + b) = removeOldestN (removeOldestN c a) b := by
  induction a with
  | zero =>
    intro c
    rw [Nat.zero_add]
    rfl
  | succ n ih =>
    intro c
    rw [show n + 1 + b = (n + b) + 1 from by omega]
    show removeOldestN (removeOldest c) (n + b) = _
    rw [ih (removeOldest c)]
    rfl

lemma reverse_drop_reverse (l : List ElemId) (m : Nat) (hm : m ≤ l.length) :
    (l.reverse.drop m).reverse = l.take (l.length - m) := by
  have h : (l.take (l.length - m)).reverse = l.reverse.drop m := by
    rw [List.reverse_take]
    congr 1
    omega
  rw [← h, List.reverse_reverse]

end TciLru

namespace TciLru

/-- C8, amended: the shrink clause is restricted to non-negative
`newCapacity` (for a negative target the code still evicts everything
but *returns* `n - newCapacity`, more than the number of evictable
entries — see the counterexample). For a well-formed cache holding `n`
entries: if `0 ≤ newCapacity < n`, `Resize` evicts exactly the
`n - newCapacity` back-most entries — the survivors are the
`newCapacity` front-most in unchanged order, each evicted entry fires
the callback once, back-most first — and returns `n - newCapacity`;
if `newCapacity ≥ n`, `Resize` evicts nothing, returns 0, and its only
effect is updating the stored capacity. -/
theorem C8_resize_shrink_and_grow (c : LRU) (s : Int) (hwf : WF c) :
    ((Len c : Int) ≤ s → Resize c s = ({ c with size := s }, 0)) ∧
    (0 ≤ s → s < (Len c : Int) →
      (Resize c s).2 = (Len c : Int) - s ∧
      (Resize c s).1.order = c.order.take s.toNat ∧
      (Resize c s).1.store = c.store ∧
      (Resize c s).1.size = s ∧
      (Resize c s).1.log = c.log ++
        (c.order.reverse.take (Len c - s.toNat)).filterMap
          (fun el => (alookup c.store el).map (fun e => (e.key, e.value)))) := by
  constructor
  · intro hle
    simp only [Len] at hle
    unfold Resize
    rw [show max ((c.order.length : Int) - s) 0 = 0 from
      max_eq_right (by omega)]
    rfl
  · intro hs0 hslt
    simp only [Len] at hslt ⊢
    have hmax : max ((c.order.length : Int) - s) 0
        = (c.order.length : Int) - s := max_eq_left (by omega)
    have hmN : ((c.order.length : Int) - s).toNat
        = c.order.length - s.toNat := by omega
    have hmle : c.order.length - s.toNat ≤ c.order.length := by omega
    obtain ⟨ho, hst, hsz, hnx, hlog, _⟩ :=
      removeOldestN_spec (c.order.length - s.toNat) c hwf hmle
    unfold Resize
    rw [hmax]
    dsimp only
    rw [hmN]
    refine ⟨rfl, ?_, ?_, rfl, ?_⟩
    · show (removeOldestN c (c.order.length - s.toNat)).order = _
      rw [ho, reverse_drop_reverse c.order _ (by omega)]
      congr 1
      omega
    · exact hst
    · exact hlog

/-- Witness for C8: a well-formed cache holding 5 entries at capacity 5,
resized to capacity 2, returns eviction count `5 - 2 = 3`. -/
theorem C8_resize_shrink_and_grow_witness :
    (Resize (addAll (⟨5, [], [], [], [], 0, []⟩ : LRU)
      [(1, 1, []), (2, 2, []), (3, 3, []), (4, 4, []), (5, 5, [])]).1 2).2
      = (Len (addAll (⟨5, [], [], [], [], 0, []⟩ : LRU)
        [(1, 1, []), (2, 2, []), (3, 3, []), (4, 4, []), (5, 5, [])]).1
          : Int) - 2 := by
  exact ((C8_resize_shrink_and_grow _ 2 (by decide)).2 (by decide)
    (by decide)).1

/-- C10, amended: `Resize`, unlike construction, accepts any capacity
including zero and negative values without error. `Resize(s)` with
`s ≤ 0` evicts every entry and returns `n - s` — the previous length
plus `|s|`, equal to the previous length only when `s = 0` (the
original claim's "returns the previous length" fails for `s < 0`, see
the counterexample) — and stores `s` as the capacity, after which every
`Add` of a new key immediately evicts the entry just added, returns
`true`, and leaves the key absent. -/
theorem C10_resize_accepts_nonpositive (c : LRU) (s : Int) (hwf : WF c)
    (hs : s ≤ 0) :
    (Resize c s).2 = (Len c : Int) - s ∧
    (Resize c s).1.order = [] ∧
    (Resize c s).1.size = s ∧
    (∀ k v ts, alookup (Resize c s).1.items k = none →
      (Add (Resize c s).1 k v ts).2 = true ∧
      (Add (Resize c s).1 k v ts).1.order = [] ∧
      Contains (Add (Resize c s).1 k v ts).1 k = false) := by
  have hmax : max ((c.order.length : Int) - s) 0
      = (c.order.length : Int) - s := max_eq_left (by omega)
  have hsplit : ((c.order.length : Int) - s).toNat
      = c.order.length + (-s).toNat := by omega
  obtain ⟨ho, hst, hsz, hnx, hlog, hwfN⟩ :=
    removeOldestN_spec c.order.length c hwf (le_refl _)
  have hoe : (removeOldestN c c.order.length).order = [] := by
    rw [ho]
    simp
  have hrest : removeOldestN c (((c.order.length : Int) - s).toNat)
      = removeOldestN c c.order.length := by
    rw [hsplit, removeOldestN_add]
    exact removeOldestN_empty _ _ hoe
  have hres : Resize c s
      = ({ removeOldestN c c.order.length with size := s },
         (c.order.length : Int) - s) := by
    unfold Resize
    rw [hmax]
    dsimp only
    rw [hrest]
  refine ⟨by rw [hres]; rfl, by rw [hres]; exact hoe, by rw [hres], ?_⟩
  intro k v ts hk
  rw [hres] at hk ⊢
  obtain ⟨S, hAddEq, hSorder, hSstore, hSitems, hSlog, hSsize, hSnext⟩ :=
    Add_evict { removeOldestN c c.order.length with size := s } k v ts hk
      (by
        show ((removeOldestN c c.order.length).order.length : Int) + 1 > s
        rw [hoe]
        simp
        omega)
  have hSorder' : S.order = [(removeOldestN c c.order.length).nextId] := by
    rw [hSorder]
    show _ :: (removeOldestN c c.order.length).order = _
    rw [hoe]
  have hentS : alookup S.store (removeOldestN c c.order.length).nextId
      = some ⟨k, v, ts⟩ := by
    rw [hSstore]
    show alookup ((removeOldestN c c.order.length).store ++ _) _ = _
    rw [alookup_append]
    · simp [alookup]
    · rw [hst, hnx]
      exact alookup_lt_none c.store c.nextId hwf.2.2
  have hlastS : S.order.getLast? = some
      (removeOldestN c c.order.length).nextId := by
    rw [hSorder']
    rfl
  obtain ⟨hrO, hrSt, hrIt, hrLog, hrSz, hrNx⟩ :=
    removeElement_fields S _ ⟨k, v, ts⟩ hentS
  rw [hAddEq, removeOldest_last S _ hlastS]
  refine ⟨rfl, ?_, ?_⟩
  · rw [hrO, hSorder']
    simp
  · unfold Contains
    rw [hrIt]
    show (alookup (aerase S.items k) k).isSome = false
    rw [hSitems, aerase_aset_of_none _ _ _ hk, hk]
    rfl

end TciLru

namespace TciLru

/-- Witness for C6 at capacity `N = 1` and keys `1, 2`. -/
theorem C6_capacity_bound_evicts_first_witness :
    (addAll (⟨((1 : Nat) : Int), [], [], [], [], 0, []⟩ : LRU)
      [(1, 5, []), (2, 6, [])]).2 = List.replicate 1 false ++ [true] := by
  exact (C6_capacity_bound_evicts_first 1 (by decide) [(1, 5, []), (2, 6, [])]
    (by decide) (by decide) (1, 5, []) (by decide)
    ⟨((1 : Nat) : Int), [], [], [], [], 0, []⟩ (by decide)).1

/-- Witness for C10: a cache holding one entry, resized to `-1`, returns
`1 - (-1) = 2`. -/
theorem C10_resize_accepts_nonpositive_witness :
    (Resize (Add (⟨10, [], [], [], [], 0, []⟩ : LRU) 1 7 []).1 (-1)).2
      = (Len (Add (⟨10, [], [], [], [], 0, []⟩ : LRU) 1 7 []).1 : Int)
        - (-1) := by
  exact (C10_resize_accepts_nonpositive _ (-1) (by decide) (by decide)).1

end TciLru
